import Mathlib

/-!
Shallow embedding of the hook dispatch engine of `django_bulk_hooks`
(`django_bulk_hooks/handler.py`, with the registry operations modelled
from the specification where the registry module is not available).

Conventions of the embedding:
* records are values of an arbitrary type `α`; Python `None` inside the
  padded old-record list is `Option.none`;
* event names (Python strings tested with `str.startswith`) are lists of
  characters, tested with `List.isPrefixOf`;
* the handler identity `(handler_cls, method_name)` is flattened to a
  pair of naturals `Nat × Nat`;
* a handler method is abstracted as a pure function `invoke` returning
  `HookResult` (normal return or a raised exception value of type `ε`),
  and handler construction (`handler_cls()`, which in the source runs
  outside the per-invocation `try` block) as a function `construct`
  returning `Option ε` (`some e` models a raised exception);
* `logger.exception` is invisible to callers and is not modelled beyond
  the recorded per-invocation result.
-/

namespace BulkHooks

/-- Event names, as the character lists of the Python event strings. -/
abbrev Event := List Char

/-- Translation of `event.startswith("after_")` from `handler.py`. -/
def isAfterEvent (e : Event) : Bool :=
  List.isPrefixOf ("after_".toList) e

/-- Translation of `event.startswith("before_")` (used by context helpers and
by the specification to classify events). -/
def isBeforeEvent (e : Event) : Bool :=
  List.isPrefixOf ("before_".toList) e

/-- Classification of `validate_*` events, used by the specification's
transaction-scheduling sentence. -/
def isValidateEvent (e : Event) : Bool :=
  List.isPrefixOf ("validate_".toList) e

/-- Outcome of one handler method invocation: normal return, or a raised
exception carrying a value of type `ε`. -/
inductive HookResult (ε : Type) where
  | ok : HookResult ε
  | err : ε → HookResult ε
deriving DecidableEq, Repr

/-- One hook registration as stored in the registry and consumed by
`HookHandler._process`: the tuple
`(handler_cls, method_name, condition, priority, select_related_fields)`.
The condition is `condition.check` as a boolean function on a new record
and an optional old record. -/
structure Reg (α : Type) where
  key : Nat × Nat
  condition : Option (α → Option α → Bool)
  priority : Int
  selectRelated : Option (List Nat)

/-- Modelled from the spec: `django_bulk_hooks.engine._apply_select_related`
is not among the provided sources; per §6 of the specification the preload
collaborator warms relation caches on the records in place and never alters
the record values, so as a value-level function it is the identity. -/
def applySelectRelated {α : Type} (records : List α) (fields : List Nat) : List α :=
  records

/-- Observation of one handler invocation performed by `_execute`: the
registration's key and priority, the exact `new_records`/`old_records`
keyword arguments passed to the method, and the invocation outcome. -/
structure Ev (α ε : Type) where
  key : Nat × Nat
  prio : Int
  newArgs : List α
  oldArgs : List (Option α)
  result : HookResult ε
deriving DecidableEq, Repr

/-- Translation of the old-record padding at the top of `_execute`
(`handler.py` lines 136-139): existing old records are kept (wrapped in
`some`), and **only when the old list is shorter than the new list** it is
extended with `None` markers up to the new list's length. -/
def padOld {α : Type} (newRecords oldRecords : List α) : List (Option α) :=
  let old := oldRecords.map some
  if oldRecords.length < newRecords.length then
    old ++ List.replicate (newRecords.length - oldRecords.length) none
  else
    old

/-- Translation of the condition gate of `_execute` (`handler.py` lines
149-154): with no condition the hook always fires; with a condition, the
checks for all `zip`-ped pairs are computed and the hook fires iff `any`
of them is true. -/
def regFires {α : Type} (h : Reg α) (nl : List α) (ol : List (Option α)) : Bool :=
  match h.condition with
  | none => true
  | some c => (nl.zip ol).any (fun p => c p.1 p.2)

/-- The new-record list one iteration of the `_execute` loop works with:
the select-related preload is applied when the registration requests it
(`handler.py` lines 142-147). -/
def nlrOf {α : Type} (h : Reg α) (nl : List α) : List α :=
  match h.selectRelated with
  | some fs => applySelectRelated nl fs
  | none => nl

/-- Translation of the `for` loop of `_execute` (`handler.py` lines
141-179) over the (already sorted) hook list. Per iteration: apply
select-related preloading to the new list, evaluate the condition gate,
construct the handler (outside the `try`, so a raised exception aborts the
loop and propagates), then invoke the method inside `try/except`: the
outcome is recorded and the loop continues even on `err`. -/
def execLoop {α ε : Type} (construct : Nat × Nat → Option ε)
    (invoke : Nat × Nat → List α → List (Option α) → HookResult ε)
    (nl : List α) (ol : List (Option α)) :
    List (Reg α) → List (Ev α ε) × Option ε
  | [] => ([], none)
  | h :: rest =>
    let nlr := nlrOf h nl
    if regFires h nlr ol then
      match construct h.key with
      | some e => ([], some e)
      | none =>
        let r := invoke h.key nlr ol
        let tail := execLoop construct invoke nl ol rest
        (⟨h.key, h.priority, nlr, ol, r⟩ :: tail.1, tail.2)
    else
      execLoop construct invoke nl ol rest

/-- Translation of `_execute` (`handler.py` lines 135-179): build the
local new/old lists (padding only the old side) and run the hook loop.
Returns the invocation trace together with the exception, if any, that
propagated out of the loop. -/
def hexecute {α ε : Type} (hooks : List (Reg α)) (newRecords oldRecords : List α)
    (construct : Nat × Nat → Option ε)
    (invoke : Nat × Nat → List α → List (Option α) → HookResult ε) :
    List (Ev α ε) × Option ε :=
  execLoop construct invoke newRecords (padOld newRecords oldRecords) hooks

/-- Translation of `sorted(get_hooks(model, event), key=lambda x: x[3])`
(`handler.py` line 133): Python's `sorted` is a stable ascending sort on the
key, here the registration's numeric priority. The embedding uses insertion
sort, which is stable: an element is inserted before the first element whose
priority is not strictly smaller, so equal-priority elements keep their
original relative order (the earlier one stays first). -/
def insertByPriority {α : Type} (r : Reg α) : List (Reg α) → List (Reg α)
  | [] => [r]
  | s :: rest =>
    if s.priority < r.priority then s :: insertByPriority r rest
    else r :: s :: rest

/-- Stable ascending sort by priority; the embedding of Python's `sorted`
with `key=lambda x: x[3]`. -/
def sortByPriority {α : Type} : List (Reg α) → List (Reg α)
  | [] => []
  | r :: rest => insertByPriority r (sortByPriority rest)

/-- One row of the flattened registry: the `(entityType, event)` key under
which the registration is stored, plus the registration itself. Entity types
are opaque identities, modelled as naturals. -/
structure StoredReg (α : Type) where
  model : Nat
  event : Event
  reg : Reg α

/-- Registry state. Modelled from the spec (§4.2): the module
`django_bulk_hooks/registry.py` is not among the provided sources; per the
specification the registry maps `(entityType, event)` to an ordered list of
registrations, here flattened to one ordered row list. The `registered` set
is the `HookMeta._registered` key set from `handler.py` lines 68-93 (keys
`(model_cls, event, cls, method_name)`, with the class/method pair flattened
to the registration key). -/
structure RegistryState (α : Type) where
  rows : List (StoredReg α)
  registered : List (Nat × Event × (Nat × Nat))

/-- Modelled from the spec (§4.2 `Register`): appends a registration for
`(model, event)` unless a registration with the same
`(entityType, event, handlerIdentity, methodIdentity)` key is already
present, in which case it is a no-op; `register_hook` itself is not among
the provided sources. -/
def register_hook {α : Type} (st : RegistryState α) (model : Nat) (event : Event)
    (r : Reg α) : RegistryState α :=
  if st.rows.any (fun row =>
      row.model == model && row.event == event && row.reg.key == r.key) then
    st
  else
    { st with rows := st.rows ++ [⟨model, event, r⟩] }

/-- Translation of the registration step of `HookMeta.__new__`
(`handler.py` lines 73-92) for one annotated method: if the key
`(model_cls, event, cls, method_name)` is not in `HookMeta._registered`,
call `register_hook` and add the key to the set; otherwise do nothing. -/
def hookMetaRegister {α : Type} (st : RegistryState α) (model : Nat) (event : Event)
    (r : Reg α) : RegistryState α :=
  let key : Nat × Event × (Nat × Nat) := (model, event, r.key)
  if key ∈ st.registered then st
  else
    let st1 := register_hook st model event r
    { st1 with registered := st1.registered ++ [key] }

/-- Modelled from the spec (§4.2 `Lookup`): returns the ordered list of
registrations stored under `(entityType, event)`, empty for unknown keys;
`get_hooks` is not among the provided sources. -/
def get_hooks {α : Type} (st : RegistryState α) (model : Nat) (event : Event) :
    List (Reg α) :=
  (st.rows.filter (fun row => row.model == model && row.event == event)).map
    (fun row => row.reg)

/-- The thread-local `hook_vars` record of `handler.py` lines 14-23:
the execution-context fields plus the nesting-depth counter. -/
structure HookVars (α : Type) where
  new : Option (List α)
  old : Option (List α)
  event : Option Event
  model : Option Nat
  depth : Nat
deriving DecidableEq, Repr

/-- The output of one `_process` call: the inline invocation trace and the
exception (if any) that propagated from the inline run, together with the
deferred on-commit execution when one was registered (holding the trace and
exception that execution produces when the commit fires). -/
structure ProcOut (α ε : Type) where
  inlineTrace : List (Ev α ε)
  inlineErr : Option ε
  deferred : Option (List (Ev α ε) × Option ε)
deriving DecidableEq, Repr

/-- The handler-invocation work of one `_process` call on the sorted hook
list: both branches of `handler.py` lines 183-186 run exactly this, either
inline or as the on-commit callback. -/
def processExec {α ε : Type} (st : RegistryState α) (model : Nat) (event : Event)
    (newRecords oldRecords : List α) (construct : Nat × Nat → Option ε)
    (invoke : Nat × Nat → List α → List (Option α) → HookResult ε) :
    List (Ev α ε) × Option ε :=
  hexecute (sortByPriority (get_hooks st model event)) newRecords oldRecords
    construct invoke

/-- Translation of `HookHandler._process` (`handler.py` lines 118-192):
increment the depth and set the execution context, sort the hooks, then —
inside `try/finally` — either register `_execute` as an on-commit action
(open atomic block and an `after_` event) or run it inline; the `finally`
block clears the context fields and decrements the depth on every exit
path, normal or exceptional. The returned pair is (outputs, final
`hook_vars`). -/
def _process {α ε : Type} (st : RegistryState α) (hv : HookVars α) (event : Event)
    (model : Nat) (newRecords oldRecords : List α) (inAtomic : Bool)
    (construct : Nat × Nat → Option ε)
    (invoke : Nat × Nat → List α → List (Option α) → HookResult ε) :
    ProcOut α ε × HookVars α :=
  let hv1 : HookVars α :=
    { new := some newRecords, old := some oldRecords, event := some event,
      model := some model, depth := hv.depth + 1 }
  let out : ProcOut α ε :=
    if inAtomic && isAfterEvent event then
      { inlineTrace := [], inlineErr := none,
        deferred := some (processExec st model event newRecords oldRecords
          construct invoke) }
    else
      let r := processExec st model event newRecords oldRecords construct invoke
      { inlineTrace := r.1, inlineErr := r.2, deferred := none }
  let hvFinal : HookVars α :=
    { new := none, old := none, event := none, model := none,
      depth := hv1.depth - 1 }
  (out, hvFinal)

/-- One entry of the per-thread dispatch queue (`handler.py` line 108):
`(cls, event, model, new_records, old_records, kwargs)`, with the handler
class and the opaque kwargs dropped (every queued class runs the same
`_process`, and kwargs are passed through unchanged). -/
structure Entry (α : Type) where
  event : Event
  model : Nat
  newRecords : List α
  oldRecords : List α
deriving DecidableEq, Repr

/-- Observable events of a run of the dispatch machine.
`push` records a `HookHandler.handle` call: the entry pushed, the queue
length the call observed **before** its own push, and the call-stack
nesting depth of the `handle` call. `proc` records an entry being handed
to `_process`, with the nesting depth at which that happens. `invoke`
records one handler invocation. `defer` records `_process` registering its
execution loop with `transaction.on_commit` instead of running inline. -/
inductive MEv (α : Type) where
  | push : Entry α → Nat → Nat → MEv α
  | proc : Entry α → Nat → MEv α
  | invoke : Nat × Nat → Nat → MEv α
  | defer : Entry α → MEv α
deriving DecidableEq, Repr

/-- State of the dispatch machine: the per-thread queue, the shared mutable
state `acc` that hook bodies read and update (the "shared counter" of the
spec's reentrancy test), and the chronological trace. -/
structure MState (α σ : Type) where
  queue : List (Entry α)
  acc : σ
  trace : List (MEv α)

/-- Pending work of the dispatch machine, mirroring the call structure of
`handler.py`:
`handleT e d` is a `HookHandler.handle(e)` call at nesting depth `d`;
`drainT d` is the `while queue:` drain loop of the `handle` call at depth
`d`; `procT e d` is `_process` on `e` from that loop; `invokeT hooks nl ol
d` is the remainder of the `_execute` loop over the sorted hooks. -/
inductive Task (α : Type) where
  | handleT : Entry α → Nat → Task α
  | drainT : Nat → Task α
  | procT : Entry α → Nat → Task α
  | invokeT : List (Reg α) → List α → List (Option α) → Nat → Task α

/-- Recognizer for drain tasks, used by the queue-emptiness invariant. -/
def Task.isDrain {α : Type} : Task α → Bool
  | Task.drainT _ => true
  | _ => false

/-- One step of the dispatch machine on the head task, returning the tasks
that replace it and the successor state. The cases are faithful to
`handler.py`:
* `handleT` (lines 107-116): append the entry to the queue and, **only
  when the queue now holds more than one entry**, return without draining;
  otherwise start the drain loop. Note the source's drain loop pops an
  entry *before* processing it, which is why a nested `handle` call made
  from inside a hook finds the queue empty again.
* `drainT` (lines 114-116): stop when the queue is empty, else pop the
  head and process it, then continue draining.
* `procT` (lines 118-192): record the `_process` call, sort the hooks; an
  open atomic block together with an `after_` event defers the execution
  loop to commit, otherwise the loop runs inline.
* `invokeT` (lines 141-179): run the condition gate per hook; a firing
  hook updates the shared state and may itself call `handle` — those
  nested calls run at nesting depth `d + 1`, at the point of the call,
  before the remaining hooks of this loop. -/
def mstep {α σ : Type} (st : RegistryState α) (inAtomic : Bool)
    (behavior : Nat × Nat → List α → List (Option α) → σ → σ × List (Entry α)) :
    Task α → MState α σ → List (Task α) × MState α σ
  | Task.handleT e d, s =>
    let qlen := s.queue.length
    let s1 : MState α σ :=
      { s with queue := s.queue ++ [e], trace := s.trace ++ [MEv.push e qlen d] }
    if qlen + 1 > 1 then ([], s1)
    else ([Task.drainT d], s1)
  | Task.drainT d, s =>
    match s.queue with
    | [] => ([], s)
    | e :: rest =>
      ([Task.procT e d, Task.drainT d], { s with queue := rest })
  | Task.procT e d, s =>
    let s1 : MState α σ := { s with trace := s.trace ++ [MEv.proc e d] }
    let hooks := sortByPriority (get_hooks st e.model e.event)
    if inAtomic && isAfterEvent e.event then
      ([], { s1 with trace := s1.trace ++ [MEv.defer e] })
    else
      ([Task.invokeT hooks e.newRecords (padOld e.newRecords e.oldRecords) d], s1)
  | Task.invokeT hooks nl ol d, s =>
    match hooks with
    | [] => ([], s)
    | h :: rest =>
      let nlr := nlrOf h nl
      if regFires h nlr ol then
        let br := behavior h.key nlr ol s.acc
        let s1 : MState α σ :=
          { s with acc := br.1, trace := s.trace ++ [MEv.invoke h.key d] }
        ((br.2.map (fun e => Task.handleT e (d + 1))) ++
          [Task.invokeT rest nl ol d], s1)
      else
        ([Task.invokeT rest nl ol d], s)

/-- Fuel-indexed run of the dispatch machine: repeatedly apply `mstep` to
the head task until no task remains (`some` final state) or the fuel is
exhausted (`none`). A `some` result models a `HookHandler.handle` call
that returns normally. -/
def mrun {α σ : Type} (st : RegistryState α) (inAtomic : Bool)
    (behavior : Nat × Nat → List α → List (Option α) → σ → σ × List (Entry α)) :
    Nat → List (Task α) → MState α σ → Option (MState α σ)
  | _, [], s => some s
  | 0, _ :: _, _ => none
  | fuel + 1, t :: ts, s =>
    let r := mstep st inAtomic behavior t s
    mrun st inAtomic behavior fuel (r.1 ++ ts) r.2

/-- A full `HookHandler.handle(event, model, new, old)` call on a thread
whose dispatch queue starts in state `s`: one `handleT` task at nesting
depth 1. -/
def runHandle {α σ : Type} (st : RegistryState α) (inAtomic : Bool)
    (behavior : Nat × Nat → List α → List (Option α) → σ → σ × List (Entry α))
    (fuel : Nat) (e : Entry α) (s : MState α σ) : Option (MState α σ) :=
  mrun st inAtomic behavior fuel [Task.handleT e 1] s

/-- Number of `proc` events for a given entry in a trace: how many times
the entry was handed to `_process`. -/
def countProcOf {α : Type} [DecidableEq α] (en : Entry α) (tr : List (MEv α)) : Nat :=
  tr.countP (fun ev => match ev with
    | MEv.proc e _ => e == en
    | _ => false)

/-- Number of `push` events for a given entry in a trace: how many times
the entry was enqueued by a `handle` call. -/
def countPushOf {α : Type} [DecidableEq α] (en : Entry α) (tr : List (MEv α)) : Nat :=
  tr.countP (fun ev => match ev with
    | MEv.push e _ _ => e == en
    | _ => false)

/-- Number of pending `procT` tasks for a given entry in a task list. -/
def taskProcCount {α : Type} [DecidableEq α] (en : Entry α) (ts : List (Task α)) : Nat :=
  ts.countP (fun t => match t with
    | Task.procT e _ => e == en
    | _ => false)

/-- Spec-side applicability of one registration (spec §4.3 step 4b, the
words of the specification): with no Condition the registration always
applies; with a Condition it fires iff the condition holds for **at least
one** `(new, old)` pair of the batch. Used to compare the source's
`any`-based gate against the spec's existential. -/
def specApplies {α : Type} (h : Reg α) (pairs : List (α × Option α)) : Prop :=
  match h.condition with
  | none => True
  | some c => ∃ p ∈ pairs, c p.1 p.2 = true

/-- Concrete self-retriggering scenario for the reentrancy analysis: the
dispatched entry (a `before_create` batch of one record for entity type 0). -/
def c2entry : Entry Nat :=
  ⟨"before_create".toList, 0, [5], []⟩

/-- Concrete registry for the reentrancy analysis: one unconditional
registration at priority 50 for entity type 0, event `before_create`. -/
def c2st : RegistryState Nat :=
  ⟨[⟨0, "before_create".toList, ⟨(1, 0), none, 50, none⟩⟩],
   [(0, "before_create".toList, (1, 0))]⟩

/-- Concrete hook behavior for the reentrancy analysis: the hook increments
a shared counter and re-triggers the same `handle` call while the counter
is below 3, i.e. it re-triggers itself N = 3 times. -/
def c2beh : Nat × Nat → List Nat → List (Option Nat) → Nat → Nat × List (Entry Nat) :=
  fun _ _ _ n => (n + 1, if n < 3 then [c2entry] else [])

/-- Concrete entry for the drain-accounting witness: an `after_update` batch
dispatched outside any transaction. -/
def c10entry : Entry Nat :=
  ⟨"after_update".toList, 7, [1, 2], [3, 4]⟩

/-- Concrete registry for the drain-accounting witness: one unconditional
registration for entity type 7, event `after_update`. -/
def c10st : RegistryState Nat :=
  ⟨[⟨7, "after_update".toList, ⟨(2, 0), none, 50, none⟩⟩],
   [(7, "after_update".toList, (2, 0))]⟩

/-- Concrete hook behavior for the drain-accounting witness: the hook
re-triggers the same entry once (while the shared counter is 0). -/
def c10beh : Nat × Nat → List Nat → List (Option Nat) → Nat → Nat × List (Entry Nat) :=
  fun _ _ _ n => (n + 1, if n < 1 then [c10entry] else [])

/-- There is a pending drain-loop task in the task list. -/
def hasDrainTask {α : Type} (ts : List (Task α)) : Prop :=
  ∃ d, Task.drainT d ∈ ts

/-- Number of registrations stored in the registry under `(model, event)`
with the given handler/method key. -/
def countStored {α : Type} (st : RegistryState α) (model : Nat) (event : Event)
    (k : Nat × Nat) : Nat :=
  st.rows.countP (fun row =>
    row.model == model && row.event == event && row.reg.key == k)

/-- The select-related preload never changes the record values, so the
per-iteration new list equals the loop's new list. -/
theorem nlrOf_eq {α : Type} (h : Reg α) (nl : List α) : nlrOf h nl = nl := by
  unfold nlrOf
  cases h.selectRelated <;> rfl

/-- Everything the insertion step produces is the inserted element or an
element of the original list. -/
theorem mem_insertByPriority {α : Type} {x r : Reg α} {l : List (Reg α)}
    (hx : x ∈ insertByPriority r l) : x = r ∨ x ∈ l := by
  induction l with
  | nil =>
    simp [insertByPriority] at hx
    exact Or.inl hx
  | cons s rest ih =>
    by_cases h : s.priority < r.priority
    · simp only [insertByPriority, if_pos h] at hx
      rcases List.mem_cons.mp hx with hxs | hxr
      · exact Or.inr (List.mem_cons.mpr (Or.inl hxs))
      · rcases ih hxr with h1 | h2
        · exact Or.inl h1
        · exact Or.inr (List.mem_cons.mpr (Or.inr h2))
    · simp only [insertByPriority, if_neg h] at hx
      rcases List.mem_cons.mp hx with hxr | hxs
      · exact Or.inl hxr
      · exact Or.inr hxs

/-- Inserting into a priority-sorted list keeps it priority-sorted. -/
theorem pairwise_insertByPriority {α : Type} (r : Reg α) (l : List (Reg α))
    (hl : List.Pairwise (fun a b => a.priority ≤ b.priority) l) :
    List.Pairwise (fun a b => a.priority ≤ b.priority) (insertByPriority r l) := by
  induction l with
  | nil => simp [insertByPriority]
  | cons s rest ih =>
    rcases List.pairwise_cons.mp hl with ⟨hs, hrest⟩
    by_cases h : s.priority < r.priority
    · simp only [insertByPriority, if_pos h]
      refine List.pairwise_cons.mpr ⟨?_, ih hrest⟩
      intro x hx
      rcases mem_insertByPriority hx with h1 | h2
      · subst h1
        exact Int.le_of_lt h
      · exact hs x h2
    · simp only [insertByPriority, if_neg h]
      refine List.pairwise_cons.mpr ⟨?_, hl⟩
      intro x hx
      rcases List.mem_cons.mp hx with h1 | h2
      · subst h1
        exact Int.not_lt.mp h
      · exact le_trans (Int.not_lt.mp h) (hs x h2)

/-- The embedding of Python's stable `sorted` produces a list that is
ascending in priority. -/
theorem pairwise_sortByPriority {α : Type} (l : List (Reg α)) :
    List.Pairwise (fun a b => a.priority ≤ b.priority) (sortByPriority l) := by
  induction l with
  | nil => simp [sortByPriority]
  | cons r rest ih => exact pairwise_insertByPriority r (sortByPriority rest) ih

/-- Stability of the insertion step, phrased on one priority class: the
elements of priority `p` of `insertByPriority r l` are `r` (when `r` has
priority `p`) followed by the priority-`p` elements of `l` in order —
insertion never reorders a priority class, because `r` only passes over
elements of strictly smaller priority. -/
theorem filter_insertByPriority {α : Type} (r : Reg α) (l : List (Reg α)) (p : Int) :
    (insertByPriority r l).filter (fun h => h.priority == p)
      = if r.priority == p then r :: l.filter (fun h => h.priority == p)
        else l.filter (fun h => h.priority == p) := by
  induction l with
  | nil =>
    simp only [insertByPriority, List.filter]
    by_cases h : r.priority == p <;> simp [h]
  | cons s rest ih =>
    by_cases h : s.priority < r.priority
    · simp only [insertByPriority, if_pos h]
      by_cases hrp : r.priority == p
      · have hsp : (s.priority == p) = false := by
          have hr : r.priority = p := by
            have := beq_iff_eq.mp hrp
            exact this
          have : s.priority ≠ p := by omega
          simp [this]
        simp only [if_pos hrp] at ih ⊢
        simp [List.filter, hsp, ih]
      · have hrp2 : (r.priority == p) = false := by
          simp only [beq_eq_false_iff_ne]
          exact fun hr => hrp (beq_iff_eq.mpr hr)
        simp only [if_neg hrp] at ih ⊢
        by_cases hsp : s.priority == p
        · simp [List.filter, hsp, ih]
        · simp [List.filter, hsp, ih]
    · simp only [insertByPriority, if_neg h]
      by_cases hrp : r.priority == p
      · simp [List.filter, hrp]
      · simp [List.filter, hrp]

/-- Stability of the priority sort: each priority class of the sorted list
is exactly the same subsequence, in the same order, as that priority class
of the registration list. Together with `pairwise_sortByPriority` this pins
the sort down to Python's stable `sorted`. -/
theorem filter_sortByPriority {α : Type} (l : List (Reg α)) (p : Int) :
    (sortByPriority l).filter (fun h => h.priority == p)
      = l.filter (fun h => h.priority == p) := by
  induction l with
  | nil => rfl
  | cons r rest ih =>
    simp only [sortByPriority, filter_insertByPriority, ih]
    by_cases hrp : r.priority == p
    · simp [List.filter, hrp]
    · simp [List.filter, hrp]

/-- Each recorded invocation of the execution loop comes from a hook of the
loop's list, and carries that hook's key and priority and the full batch as
arguments. -/
theorem execLoop_mem {α ε : Type} {construct : Nat × Nat → Option ε}
    {invoke : Nat × Nat → List α → List (Option α) → HookResult ε}
    {nl : List α} {ol : List (Option α)} {hooks : List (Reg α)} {e : Ev α ε}
    (he : e ∈ (execLoop construct invoke nl ol hooks).1) :
    ∃ h ∈ hooks, e.key = h.key ∧ e.prio = h.priority
      ∧ e.newArgs = nl ∧ e.oldArgs = ol ∧ regFires h nl ol = true := by
  induction hooks with
  | nil => simp [execLoop] at he
  | cons h rest ih =>
    simp only [execLoop, nlrOf_eq] at he
    by_cases hf : regFires h nl ol
    · simp only [if_pos hf] at he
      cases hc : construct h.key with
      | some err => simp [hc] at he
      | none =>
        simp only [hc] at he
        rcases List.mem_cons.mp he with h1 | h2
        · subst h1
          exact ⟨h, List.mem_cons_self h rest, rfl, rfl, rfl, rfl, hf⟩
        · rcases ih h2 with ⟨h3, hm, hk, hp, hn, ho, hfi⟩
          exact ⟨h3, List.mem_cons_of_mem h hm, hk, hp, hn, ho, hfi⟩
    · simp only [if_neg hf] at he
      rcases ih he with ⟨h3, hm, hk, hp, hn, ho, hfi⟩
      exact ⟨h3, List.mem_cons_of_mem h hm, hk, hp, hn, ho, hfi⟩

/-- When handler construction never raises, every firing hook of the list
is recorded in the trace of the execution loop. -/
theorem execLoop_fires_mem {α ε : Type}
    (invoke : Nat × Nat → List α → List (Option α) → HookResult ε)
    (nl : List α) (ol : List (Option α)) {hooks : List (Reg α)} {h : Reg α}
    (hm : h ∈ hooks) (hf : regFires h nl ol = true) :
    ∃ e ∈ (execLoop (fun _ => (none : Option ε)) invoke nl ol hooks).1,
      e.key = h.key := by
  induction hooks with
  | nil => simp at hm
  | cons h0 rest ih =>
    simp only [execLoop, nlrOf_eq]
    rcases List.mem_cons.mp hm with h1 | h2
    · subst h1
      simp only [if_pos hf]
      exact ⟨⟨h.key, h.priority, nl, ol, invoke h.key nl ol⟩,
        List.mem_cons_self _ _, rfl⟩
    · by_cases hf0 : regFires h0 nl ol
      · simp only [if_pos hf0]
        rcases ih h2 with ⟨e, hemem, hekey⟩
        exact ⟨e, List.mem_cons_of_mem _ hemem, hekey⟩
      · simp only [if_neg hf0]
        exact ih h2

/-- The source's `any`-of-checks gate coincides with the specification's
existential over the zipped pairs. -/
theorem specApplies_iff_regFires {α : Type} (h : Reg α) (nl : List α)
    (ol : List (Option α)) :
    specApplies h (nl.zip ol) ↔ regFires h nl ol = true := by
  cases hc : h.condition with
  | none => simp [specApplies, regFires, hc]
  | some c =>
    simp [specApplies, regFires, hc, List.any_eq_true]

/-- The trace of the execution loop is ascending in priority whenever the
hook list is. -/
theorem execLoop_pairwise {α ε : Type} (construct : Nat × Nat → Option ε)
    (invoke : Nat × Nat → List α → List (Option α) → HookResult ε)
    (nl : List α) (ol : List (Option α)) (hooks : List (Reg α))
    (hs : List.Pairwise (fun a b => a.priority ≤ b.priority) hooks) :
    List.Pairwise (fun a b => a.prio ≤ b.prio)
      (execLoop construct invoke nl ol hooks).1 := by
  induction hooks with
  | nil => simp [execLoop]
  | cons h rest ih =>
    rcases List.pairwise_cons.mp hs with ⟨hhd, hrest⟩
    simp only [execLoop, nlrOf_eq]
    by_cases hf : regFires h nl ol
    · simp only [if_pos hf]
      cases hc : construct h.key with
      | some err => simp
      | none =>
        simp only []
        refine List.pairwise_cons.mpr ⟨?_, ih hrest⟩
        intro e he
        rcases execLoop_mem he with ⟨h3, hm, _, hp, _, _⟩
        rw [hp]
        exact hhd h3 hm
    · simp only [if_neg hf]
      exact ih hrest

/-- The keys of the priority-`p` invocations of the execution loop are a
subsequence of the keys of the priority-`p` hooks, in order: the loop walks
the hook list front to back and only ever skips entries. -/
theorem execLoop_filter_sublist {α ε : Type} (construct : Nat × Nat → Option ε)
    (invoke : Nat × Nat → List α → List (Option α) → HookResult ε)
    (nl : List α) (ol : List (Option α)) (hooks : List (Reg α)) (p : Int) :
    List.Sublist
      (((execLoop construct invoke nl ol hooks).1.filter
        (fun e => e.prio == p)).map (fun e => e.key))
      ((hooks.filter (fun h => h.priority == p)).map (fun h => h.key)) := by
  induction hooks with
  | nil => simp [execLoop]
  | cons h rest ih =>
    simp only [execLoop, nlrOf_eq]
    by_cases hf : regFires h nl ol
    · simp only [if_pos hf]
      cases hc : construct h.key with
      | some err =>
        simp only [hc]
        simp
      | none =>
        simp only [hc]
        by_cases hp : h.priority == p
        · simp only [List.filter, hp]
          simp only [List.map]
          exact List.Sublist.cons₂ h.key ih
        · simp only [List.filter, hp]
          exact ih
    · simp only [if_neg hf]
      by_cases hp : h.priority == p
      · simp only [List.filter, hp]
        simp only [List.map]
        exact List.Sublist.cons h.key ih
      · simp only [List.filter, hp]
        exact ih

/-- C3: within one `_process` call the recorded invocations are in
ascending numeric priority order (lower priority value first), and for
every priority value `p` the keys of the priority-`p` invocations form a
subsequence — in order — of the keys of the priority-`p` registrations as
stored in the registry: the sort is stable, so equal-priority registrations
are invoked in registration order. -/
theorem c3_priority_order {α ε : Type} (st : RegistryState α) (model : Nat)
    (event : Event) (newRecords oldRecords : List α)
    (construct : Nat × Nat → Option ε)
    (invoke : Nat × Nat → List α → List (Option α) → HookResult ε) (p : Int) :
    List.Pairwise (fun a b => a.prio ≤ b.prio)
      (processExec st model event newRecords oldRecords construct invoke).1
    ∧ List.Sublist
        (((processExec st model event newRecords oldRecords construct
            invoke).1.filter (fun e => e.prio == p)).map (fun e => e.key))
        (((get_hooks st model event).filter (fun h => h.priority == p)).map
          (fun h => h.key)) := by
  constructor
  · exact execLoop_pairwise construct invoke newRecords
      (padOld newRecords oldRecords) (sortByPriority (get_hooks st model event))
      (pairwise_sortByPriority (get_hooks st model event))
  · have hsub := execLoop_filter_sublist construct invoke newRecords
      (padOld newRecords oldRecords) (sortByPriority (get_hooks st model event)) p
    rw [filter_sortByPriority] at hsub
    exact hsub

/-- C5: when handler construction raises nothing, a registration is
invoked iff it applies in the sense of the specification — no Condition,
or the Condition true for **at least one** `(new, old)` pair of the zipped
batch — and every invoked handler receives the full batch: the whole new
list and the whole (padded) old list, matched and unmatched records
together. -/
theorem c5_condition_gating {α ε : Type} (regs : List (Reg α))
    (newRecords oldRecords : List α)
    (invoke : Nat × Nat → List α → List (Option α) → HookResult ε)
    (k : Nat × Nat) :
    ((∃ e ∈ (hexecute regs newRecords oldRecords
        (fun _ => (none : Option ε)) invoke).1, e.key = k)
      ↔ (∃ h ∈ regs, h.key = k
          ∧ specApplies h (newRecords.zip (padOld newRecords oldRecords))))
    ∧ ∀ e ∈ (hexecute regs newRecords oldRecords
        (fun _ => (none : Option ε)) invoke).1,
        e.newArgs = newRecords ∧ e.oldArgs = padOld newRecords oldRecords := by
  constructor
  · constructor
    · rintro ⟨e, hemem, hekey⟩
      rcases execLoop_mem hemem with ⟨h, hm, hk, _, _, _, hfi⟩
      refine ⟨h, hm, ?_, ?_⟩
      · rw [← hekey, hk]
      · exact (specApplies_iff_regFires h newRecords
          (padOld newRecords oldRecords)).mpr hfi
    · rintro ⟨h, hm, hk, happ⟩
      have hf := (specApplies_iff_regFires h newRecords
        (padOld newRecords oldRecords)).mp happ
      rcases execLoop_fires_mem invoke newRecords
        (padOld newRecords oldRecords) hm hf with ⟨e, hemem, hekey⟩
      exact ⟨e, hemem, by rw [hekey, hk]⟩
  · intro e he
    rcases execLoop_mem he with ⟨h, _, _, _, hn, ho, _⟩
    exact ⟨hn, ho⟩

/-- Witness for C5 at a concrete input: one conditional registration whose
`HasChanged`-style condition holds for the single pair, so the invocation
is recorded with the full batch, and the existential side holds. -/
theorem c5_condition_gating_witness :
    (∃ h ∈ [(⟨(3, 1), some (fun n o => !(o.getD 0 == n)), 50, none⟩ : Reg Nat)],
      h.key = (3, 1)
      ∧ specApplies h ([150].zip (padOld [150] [100]))) := by
  exact (c5_condition_gating
    [(⟨(3, 1), some (fun n o => !(o.getD 0 == n)), 50, none⟩ : Reg Nat)]
    [150] [100] (fun _ _ _ => (HookResult.ok : HookResult Nat)) (3, 1)).1.mp
    ⟨⟨(3, 1), 50, [150], [some 100], HookResult.ok⟩, by decide, rfl⟩

/-- An event name beginning with `before_` does not begin with `after_`. -/
theorem isBefore_not_isAfter (e : Event) (h : isBeforeEvent e = true) :
    isAfterEvent e = false := by
  cases e with
  | nil =>
    have h2 : List.isPrefixOf ['b', 'e', 'f', 'o', 'r', 'e', '_'] ([] : List Char)
        = true := h
    simp [List.isPrefixOf] at h2
  | cons c cs =>
    have h2 : List.isPrefixOf ['b', 'e', 'f', 'o', 'r', 'e', '_'] (c :: cs)
        = true := h
    simp only [List.isPrefixOf, Bool.and_eq_true, beq_iff_eq] at h2
    show List.isPrefixOf ['a', 'f', 't', 'e', 'r', '_'] (c :: cs) = false
    simp only [List.isPrefixOf, Bool.and_eq_false_iff]
    left
    rw [← h2.1]
    decide

/-- An event name beginning with `validate_` does not begin with `after_`. -/
theorem isValidate_not_isAfter (e : Event) (h : isValidateEvent e = true) :
    isAfterEvent e = false := by
  cases e with
  | nil =>
    have h2 : List.isPrefixOf ['v', 'a', 'l', 'i', 'd', 'a', 't', 'e', '_']
        ([] : List Char) = true := h
    simp [List.isPrefixOf] at h2
  | cons c cs =>
    have h2 : List.isPrefixOf ['v', 'a', 'l', 'i', 'd', 'a', 't', 'e', '_']
        (c :: cs) = true := h
    simp only [List.isPrefixOf, Bool.and_eq_true, beq_iff_eq] at h2
    show List.isPrefixOf ['a', 'f', 't', 'e', 'r', '_'] (c :: cs) = false
    simp only [List.isPrefixOf, Bool.and_eq_false_iff]
    left
    rw [← h2.1]
    decide

/-- Counting `proc` events distributes over trace concatenation. -/
theorem countProcOf_append {α : Type} [DecidableEq α] (en : Entry α)
    (t1 t2 : List (MEv α)) :
    countProcOf en (t1 ++ t2) = countProcOf en t1 + countProcOf en t2 := by
  simp [countProcOf, List.countP_append]

/-- Counting `push` events distributes over trace concatenation. -/
theorem countPushOf_append {α : Type} [DecidableEq α] (en : Entry α)
    (t1 t2 : List (MEv α)) :
    countPushOf en (t1 ++ t2) = countPushOf en t1 + countPushOf en t2 := by
  simp [countPushOf, List.countP_append]

/-- A single `push` event contains no `proc` event. -/
theorem countProcOf_push_one {α : Type} [DecidableEq α] (en e : Entry α)
    (q d : Nat) : countProcOf en [MEv.push e q d] = 0 := by
  simp [countProcOf]

/-- A single `proc` event counts one processing of its entry. -/
theorem countProcOf_proc_one {α : Type} [DecidableEq α] (en e : Entry α)
    (d : Nat) : countProcOf en [MEv.proc e d] = if e == en then 1 else 0 := by
  simp [countProcOf, List.countP_cons]

/-- A single `invoke` event contains no `proc` event. -/
theorem countProcOf_invoke_one {α : Type} [DecidableEq α] (en : Entry α)
    (k : Nat × Nat) (d : Nat) : countProcOf en [MEv.invoke k d] = 0 := by
  simp [countProcOf]

/-- A single `defer` event contains no `proc` event. -/
theorem countProcOf_defer_one {α : Type} [DecidableEq α] (en e : Entry α) :
    countProcOf en [MEv.defer e] = 0 := by
  simp [countProcOf]

/-- A single `push` event counts one enqueue of its entry. -/
theorem countPushOf_push_one {α : Type} [DecidableEq α] (en e : Entry α)
    (q d : Nat) : countPushOf en [MEv.push e q d] = if e == en then 1 else 0 := by
  simp [countPushOf, List.countP_cons]

/-- A single `proc` event contains no `push` event. -/
theorem countPushOf_proc_one {α : Type} [DecidableEq α] (en e : Entry α)
    (d : Nat) : countPushOf en [MEv.proc e d] = 0 := by
  simp [countPushOf]

/-- A single `invoke` event contains no `push` event. -/
theorem countPushOf_invoke_one {α : Type} [DecidableEq α] (en : Entry α)
    (k : Nat × Nat) (d : Nat) : countPushOf en [MEv.invoke k d] = 0 := by
  simp [countPushOf]

/-- A single `defer` event contains no `push` event. -/
theorem countPushOf_defer_one {α : Type} [DecidableEq α] (en e : Entry α) :
    countPushOf en [MEv.defer e] = 0 := by
  simp [countPushOf]

/-- Counting pending `procT` tasks distributes over task-list
concatenation. -/
theorem taskProcCount_append {α : Type} [DecidableEq α] (en : Entry α)
    (t1 t2 : List (Task α)) :
    taskProcCount en (t1 ++ t2) = taskProcCount en t1 + taskProcCount en t2 := by
  simp [taskProcCount, List.countP_append]

/-- Spawned nested `handle` tasks contain no pending `procT` task. -/
theorem taskProcCount_handleTs {α : Type} [DecidableEq α] (en : Entry α)
    (l : List (Entry α)) (k : Nat) :
    taskProcCount en (l.map (fun e => Task.handleT e k)) = 0 := by
  induction l with
  | nil => simp [taskProcCount]
  | cons e rest ih =>
    simp only [List.map, taskProcCount, List.countP_cons] at ih ⊢
    simpa using ih

/-- Conservation of dispatch-queue accounting along any normally-returning
run of the dispatch machine: for every entry, the number of times it was
handed to `_process` plus its final queue occupancy, balanced against the
pushes, equals the initial occupancy plus the pending `procT` obligations.
Each machine step preserves this quantity: a `handle` push adds one push
event and one queue occupant; a drain pop converts a queue occupant into a
pending `procT`; a `_process` call consumes the pending `procT` and adds
one `proc` event; handler invocations change none of the quantities. -/
theorem mrun_conservation {α σ : Type} [DecidableEq α] (st : RegistryState α)
    (inAtomic : Bool)
    (behavior : Nat × Nat → List α → List (Option α) → σ → σ × List (Entry α))
    (en : Entry α) :
    ∀ fuel ts s sf, mrun st inAtomic behavior fuel ts s = some sf →
      countProcOf en sf.trace + sf.queue.count en + countPushOf en s.trace
        = countProcOf en s.trace + s.queue.count en + taskProcCount en ts
          + countPushOf en sf.trace := by
  intro fuel
  induction fuel with
  | zero =>
    intro ts s sf h
    cases ts with
    | nil =>
      simp only [mrun, Option.some_inj] at h
      subst h
      simp [taskProcCount]
    | cons t ts2 => simp [mrun] at h
  | succ f ih =>
    intro ts s sf h
    cases ts with
    | nil =>
      simp only [mrun, Option.some_inj] at h
      subst h
      simp [taskProcCount]
    | cons t ts2 =>
      have h2 : mrun st inAtomic behavior f
          ((mstep st inAtomic behavior t s).1 ++ ts2)
          (mstep st inAtomic behavior t s).2 = some sf := h
      cases t with
      | handleT e d =>
        by_cases hq : s.queue.length + 1 > 1
        · have hm1 : (mstep st inAtomic behavior (Task.handleT e d) s).1 = [] := by
            simp [mstep, hq]
          have hm2 : (mstep st inAtomic behavior (Task.handleT e d) s).2
              = ⟨s.queue ++ [e], s.acc,
                 s.trace ++ [MEv.push e s.queue.length d]⟩ := by
            simp [mstep, hq]
          rw [hm1, hm2] at h2
          have hrec := ih _ _ _ h2
          simp [countProcOf, countPushOf, taskProcCount, List.countP_append,
            List.countP_cons, List.countP_nil, List.count_append,
            List.count_cons, List.count_nil] at hrec ⊢
          omega
        · have hm1 : (mstep st inAtomic behavior (Task.handleT e d) s).1
              = [Task.drainT d] := by
            simp [mstep, hq]
          have hm2 : (mstep st inAtomic behavior (Task.handleT e d) s).2
              = ⟨s.queue ++ [e], s.acc,
                 s.trace ++ [MEv.push e s.queue.length d]⟩ := by
            simp [mstep, hq]
          rw [hm1, hm2] at h2
          have hrec := ih _ _ _ h2
          simp [countProcOf, countPushOf, taskProcCount, List.countP_append,
            List.countP_cons, List.countP_nil, List.count_append,
            List.count_cons, List.count_nil] at hrec ⊢
          omega
      | drainT d =>
        cases hq : s.queue with
        | nil =>
          have hm1 : (mstep st inAtomic behavior (Task.drainT d) s).1 = [] := by
            simp [mstep, hq]
          have hm2 : (mstep st inAtomic behavior (Task.drainT d) s).2 = s := by
            simp [mstep, hq]
          rw [hm1, hm2] at h2
          have hrec := ih _ _ _ h2
          simp [countProcOf, countPushOf, taskProcCount, List.countP_append,
            List.countP_cons, List.countP_nil, List.count_append,
            List.count_cons, List.count_nil, hq] at hrec ⊢
          omega
        | cons e rest =>
          have hm1 : (mstep st inAtomic behavior (Task.drainT d) s).1
              = [Task.procT e d, Task.drainT d] := by
            simp [mstep, hq]
          have hm2 : (mstep st inAtomic behavior (Task.drainT d) s).2
              = ⟨rest, s.acc, s.trace⟩ := by
            simp [mstep, hq]
          rw [hm1, hm2] at h2
          have hrec := ih _ _ _ h2
          simp [countProcOf, countPushOf, taskProcCount, List.countP_append,
            List.countP_cons, List.countP_nil, List.count_append,
            List.count_cons, List.count_nil] at hrec ⊢
          omega
      | procT e d =>
        by_cases ha : (inAtomic && isAfterEvent e.event) = true
        · have hm1 : (mstep st inAtomic behavior (Task.procT e d) s).1 = [] := by
            simp [mstep, ha]
          have hm2 : (mstep st inAtomic behavior (Task.procT e d) s).2
              = ⟨s.queue, s.acc,
                 (s.trace ++ [MEv.proc e d]) ++ [MEv.defer e]⟩ := by
            simp [mstep, ha]
          rw [hm1, hm2] at h2
          have hrec := ih _ _ _ h2
          simp [countProcOf, countPushOf, taskProcCount, List.countP_append,
            List.countP_cons, List.countP_nil, List.count_append,
            List.count_cons, List.count_nil] at hrec ⊢
          omega
        · have hm1 : (mstep st inAtomic behavior (Task.procT e d) s).1
              = [Task.invokeT (sortByPriority (get_hooks st e.model e.event))
                  e.newRecords (padOld e.newRecords e.oldRecords) d] := by
            simp [mstep, ha]
          have hm2 : (mstep st inAtomic behavior (Task.procT e d) s).2
              = ⟨s.queue, s.acc, s.trace ++ [MEv.proc e d]⟩ := by
            simp [mstep, ha]
          rw [hm1, hm2] at h2
          have hrec := ih _ _ _ h2
          simp [countProcOf, countPushOf, taskProcCount, List.countP_append,
            List.countP_cons, List.countP_nil, List.count_append,
            List.count_cons, List.count_nil] at hrec ⊢
          omega
      | invokeT hooks nl ol d =>
        cases hooks with
        | nil =>
          have hm1 : (mstep st inAtomic behavior (Task.invokeT [] nl ol d) s).1
              = [] := by
            simp [mstep]
          have hm2 : (mstep st inAtomic behavior (Task.invokeT [] nl ol d) s).2
              = s := by
            simp [mstep]
          rw [hm1, hm2] at h2
          have hrec := ih _ _ _ h2
          simp [countProcOf, countPushOf, taskProcCount, List.countP_append,
            List.countP_cons, List.countP_nil, List.count_append,
            List.count_cons, List.count_nil] at hrec ⊢
          omega
        | cons hk rest =>
          by_cases hf : regFires hk nl ol = true
          · have hm1 : (mstep st inAtomic behavior
                (Task.invokeT (hk :: rest) nl ol d) s).1
                = ((behavior hk.key nl ol s.acc).2.map
                    (fun e => Task.handleT e (d + 1)))
                  ++ [Task.invokeT rest nl ol d] := by
              simp [mstep, nlrOf_eq, hf]
            have hm2 : (mstep st inAtomic behavior
                (Task.invokeT (hk :: rest) nl ol d) s).2
                = ⟨s.queue, (behavior hk.key nl ol s.acc).1,
                   s.trace ++ [MEv.invoke hk.key d]⟩ := by
              simp [mstep, nlrOf_eq, hf]
            rw [hm1, hm2] at h2
            have hrec := ih _ _ _ h2
            rw [List.append_assoc, taskProcCount_append,
              taskProcCount_handleTs] at hrec
            simp [countProcOf, countPushOf, taskProcCount, List.countP_append,
            List.countP_cons, List.countP_nil, List.count_append,
            List.count_cons, List.count_nil] at hrec ⊢
            omega
          · have hm1 : (mstep st inAtomic behavior
                (Task.invokeT (hk :: rest) nl ol d) s).1
                = [Task.invokeT rest nl ol d] := by
              simp [mstep, nlrOf_eq, hf]
            have hm2 : (mstep st inAtomic behavior
                (Task.invokeT (hk :: rest) nl ol d) s).2 = s := by
              simp [mstep, nlrOf_eq, hf]
            rw [hm1, hm2] at h2
            have hrec := ih _ _ _ h2
            simp [countProcOf, countPushOf, taskProcCount, List.countP_append,
            List.countP_cons, List.countP_nil, List.count_append,
            List.count_cons, List.count_nil] at hrec ⊢
            omega

/-- A normally-returning run whose initial configuration satisfies the
drain discipline — a non-empty queue always has a pending drain-loop task —
finishes with an empty queue. -/
theorem mrun_queue_nil {α σ : Type} (st : RegistryState α) (inAtomic : Bool)
    (behavior : Nat × Nat → List α → List (Option α) → σ → σ × List (Entry α)) :
    ∀ fuel ts s sf, mrun st inAtomic behavior fuel ts s = some sf →
      (s.queue ≠ [] → hasDrainTask ts) → sf.queue = [] := by
  intro fuel
  induction fuel with
  | zero =>
    intro ts s sf h hinv
    cases ts with
    | nil =>
      simp only [mrun, Option.some_inj] at h
      subst h
      by_cases hq : s.queue = []
      · exact hq
      · rcases hinv hq with ⟨d, hd⟩
        simp at hd
    | cons t ts2 => simp [mrun] at h
  | succ f ih =>
    intro ts s sf h hinv
    cases ts with
    | nil =>
      simp only [mrun, Option.some_inj] at h
      subst h
      by_cases hq : s.queue = []
      · exact hq
      · rcases hinv hq with ⟨d, hd⟩
        simp at hd
    | cons t ts2 =>
      have h2 : mrun st inAtomic behavior f
          ((mstep st inAtomic behavior t s).1 ++ ts2)
          (mstep st inAtomic behavior t s).2 = some sf := h
      cases t with
      | handleT e d =>
        by_cases hq : s.queue.length + 1 > 1
        · have hm : mstep st inAtomic behavior (Task.handleT e d) s
              = ([], ⟨s.queue ++ [e], s.acc,
                  s.trace ++ [MEv.push e s.queue.length d]⟩) := by
            simp [mstep, hq]
          rw [hm] at h2
          refine ih _ _ _ h2 (fun _ => ?_)
          have hne : s.queue ≠ [] := by
            intro hnil
            rw [hnil] at hq
            simp at hq
          rcases hinv hne with ⟨d0, hd0⟩
          rcases List.mem_cons.mp hd0 with h1 | h1
          · exact absurd h1 (by simp)
          · exact ⟨d0, by simpa using h1⟩
        · have hm : mstep st inAtomic behavior (Task.handleT e d) s
              = ([Task.drainT d], ⟨s.queue ++ [e], s.acc,
                  s.trace ++ [MEv.push e s.queue.length d]⟩) := by
            simp [mstep, hq]
          rw [hm] at h2
          refine ih _ _ _ h2 (fun _ => ?_)
          exact ⟨d, by simp⟩
      | drainT d =>
        cases hq : s.queue with
        | nil =>
          have hm : mstep st inAtomic behavior (Task.drainT d) s = ([], s) := by
            simp [mstep, hq]
          rw [hm] at h2
          refine ih _ _ _ h2 (fun hne => ?_)
          exact absurd hq hne
        | cons e rest =>
          have hm : mstep st inAtomic behavior (Task.drainT d) s
              = ([Task.procT e d, Task.drainT d], ⟨rest, s.acc, s.trace⟩) := by
            simp [mstep, hq]
          rw [hm] at h2
          refine ih _ _ _ h2 (fun _ => ?_)
          exact ⟨d, by simp⟩
      | procT e d =>
        by_cases ha : (inAtomic && isAfterEvent e.event) = true
        · have hm : mstep st inAtomic behavior (Task.procT e d) s
              = ([], ⟨s.queue, s.acc,
                  (s.trace ++ [MEv.proc e d]) ++ [MEv.defer e]⟩) := by
            simp [mstep, ha]
          rw [hm] at h2
          refine ih _ _ _ h2 (fun hne => ?_)
          rcases hinv hne with ⟨d0, hd0⟩
          rcases List.mem_cons.mp hd0 with h1 | h1
          · exact absurd h1 (by simp)
          · exact ⟨d0, by simpa using h1⟩
        · have hm : mstep st inAtomic behavior (Task.procT e d) s
              = ([Task.invokeT (sortByPriority (get_hooks st e.model e.event))
                    e.newRecords (padOld e.newRecords e.oldRecords) d],
                 ⟨s.queue, s.acc, s.trace ++ [MEv.proc e d]⟩) := by
            simp [mstep, ha]
          rw [hm] at h2
          refine ih _ _ _ h2 (fun hne => ?_)
          rcases hinv hne with ⟨d0, hd0⟩
          rcases List.mem_cons.mp hd0 with h1 | h1
          · exact absurd h1 (by simp)
          · exact ⟨d0, by simp [h1]⟩
      | invokeT hooks nl ol d =>
        cases hooks with
        | nil =>
          have hm : mstep st inAtomic behavior (Task.invokeT [] nl ol d) s
              = ([], s) := by
            simp [mstep]
          rw [hm] at h2
          refine ih _ _ _ h2 (fun hne => ?_)
          rcases hinv hne with ⟨d0, hd0⟩
          rcases List.mem_cons.mp hd0 with h1 | h1
          · exact absurd h1 (by simp)
          · exact ⟨d0, by simpa using h1⟩
        | cons hk rest =>
          by_cases hf : regFires hk nl ol = true
          · have hm : mstep st inAtomic behavior
                (Task.invokeT (hk :: rest) nl ol d) s
                = (((behavior hk.key nl ol s.acc).2.map
                      (fun e => Task.handleT e (d + 1)))
                    ++ [Task.invokeT rest nl ol d],
                   ⟨s.queue, (behavior hk.key nl ol s.acc).1,
                    s.trace ++ [MEv.invoke hk.key d]⟩) := by
              simp [mstep, nlrOf_eq, hf]
            rw [hm] at h2
            refine ih _ _ _ h2 (fun hne => ?_)
            rcases hinv hne with ⟨d0, hd0⟩
            rcases List.mem_cons.mp hd0 with h1 | h1
            · exact absurd h1 (by simp)
            · exact ⟨d0, by simp [h1]⟩
          · have hm : mstep st inAtomic behavior
                (Task.invokeT (hk :: rest) nl ol d) s
                = ([Task.invokeT rest nl ol d], s) := by
              simp [mstep, nlrOf_eq, hf]
            rw [hm] at h2
            refine ih _ _ _ h2 (fun hne => ?_)
            rcases hinv hne with ⟨d0, hd0⟩
            rcases List.mem_cons.mp hd0 with h1 | h1
            · exact absurd h1 (by simp)
            · exact ⟨d0, by simp [h1]⟩

/-- C9: on every exit path from `_process` — normal return or an exception
propagating from handler execution (here: any behavior of `construct` and
`invoke`, which fully determine whether the body raises) — the execution
context (`hook_vars.new/old/event/model`) is reset to its absent values and
the nesting-depth counter, incremented on entry, is decremented back, so no
stale context values remain visible on the thread after `_process` exits. -/
theorem c9_context_reset {α ε : Type} (st : RegistryState α) (hv : HookVars α)
    (event : Event) (model : Nat) (newRecords oldRecords : List α)
    (inAtomic : Bool) (construct : Nat × Nat → Option ε)
    (invoke : Nat × Nat → List α → List (Option α) → HookResult ε) :
    (_process st hv event model newRecords oldRecords inAtomic construct invoke).2
      = { new := none, old := none, event := none, model := none,
          depth := hv.depth } := by
  simp [_process]

/-- C4: when a transaction atomic block is open and the event begins with
`after_`, `_process` registers the entire handler-invocation loop as a
deferred on-commit action and invokes no handler inline; when no atomic
block is open, or the event is a `before_`/`validate_` event, no deferred
action is registered and the full handler loop (trace and propagated
exception alike) runs inline, before `handle` returns. -/
theorem c4_transaction_deferral {α ε : Type} (st : RegistryState α)
    (hv : HookVars α) (event : Event) (model : Nat)
    (newRecords oldRecords : List α) (construct : Nat × Nat → Option ε)
    (invoke : Nat × Nat → List α → List (Option α) → HookResult ε) :
    ((isBeforeEvent event = true ∨ isValidateEvent event = true) →
      ∀ inAtomic,
        (_process st hv event model newRecords oldRecords inAtomic construct
            invoke).1.deferred = none
        ∧ (_process st hv event model newRecords oldRecords inAtomic construct
            invoke).1.inlineTrace
          = (processExec st model event newRecords oldRecords construct invoke).1
        ∧ (_process st hv event model newRecords oldRecords inAtomic construct
            invoke).1.inlineErr
          = (processExec st model event newRecords oldRecords construct invoke).2)
    ∧ ((_process st hv event model newRecords oldRecords false construct
          invoke).1.deferred = none
        ∧ (_process st hv event model newRecords oldRecords false construct
            invoke).1.inlineTrace
          = (processExec st model event newRecords oldRecords construct invoke).1
        ∧ (_process st hv event model newRecords oldRecords false construct
            invoke).1.inlineErr
          = (processExec st model event newRecords oldRecords construct invoke).2)
    ∧ (isAfterEvent event = true →
        (_process st hv event model newRecords oldRecords true construct
            invoke).1.inlineTrace = []
        ∧ (_process st hv event model newRecords oldRecords true construct
            invoke).1.inlineErr = none
        ∧ (_process st hv event model newRecords oldRecords true construct
            invoke).1.deferred
          = some (processExec st model event newRecords oldRecords construct
              invoke)) := by
  refine ⟨?_, ?_, ?_⟩
  · intro h inAtomic
    have haf : isAfterEvent event = false := by
      rcases h with hb | hv2
      · exact isBefore_not_isAfter event hb
      · exact isValidate_not_isAfter event hv2
    simp [_process, haf]
  · simp [_process]
  · intro h
    simp [_process, h]

/-- Witness for C4 at concrete inputs: an `after_create` dispatch inside an
atomic block runs nothing inline, and a `before_update` dispatch inside an
atomic block registers no deferred action. -/
theorem c4_transaction_deferral_witness :
    ((_process (⟨[], []⟩ : RegistryState Nat) ⟨none, none, none, none, 0⟩
        ("after_create".toList) 0 [5] [] true (fun _ => (none : Option Nat))
        (fun _ _ _ => HookResult.ok)).1.inlineTrace = [])
    ∧ ((_process (⟨[], []⟩ : RegistryState Nat) ⟨none, none, none, none, 0⟩
        ("before_update".toList) 0 [5] [] true (fun _ => (none : Option Nat))
        (fun _ _ _ => HookResult.ok)).1.deferred = none) := by
  constructor
  · exact ((c4_transaction_deferral _ _ _ _ _ _ _ _).2.2 (by decide)).1
  · exact ((c4_transaction_deferral (⟨[], []⟩ : RegistryState Nat)
      ⟨none, none, none, none, 0⟩ ("before_update".toList) 0 [5] []
      (fun _ => (none : Option Nat)) (fun _ _ _ => HookResult.ok)).1
      (Or.inl (by decide)) true).1

/-- C2 (code bug): a hook that re-triggers itself N = 3 times does
terminate with exactly N + 1 = 4 invocations and an empty queue, but the
queue-based reentrancy guard never engages: the drain loop of
`HookHandler.handle` pops the entry **before** processing it, so every
nested `handle` call observes an empty queue before its own push (third
component: the queue lengths the four `handle` calls saw are all 0 — the
`len(queue) > 1` early return of `handler.py` line 110 is never taken),
and each nested entry is processed by the nested call itself at strictly
increasing call-stack depths 1, 2, 3, 4 (second component), not by the
outermost call's drain loop at bounded depth as the claim states. -/
theorem c2_nested_handle_recursion_run :
    (runHandle c2st false c2beh 200 c2entry ⟨[], 0, []⟩).map (fun s =>
      (s.queue,
       s.trace.filterMap (fun ev => match ev with
         | MEv.proc _ d => some d
         | _ => none),
       s.trace.filterMap (fun ev => match ev with
         | MEv.push _ q _ => some q
         | _ => none),
       (s.trace.filterMap (fun ev => match ev with
         | MEv.invoke k d => some (k, d)
         | _ => none)).length))
    = some ([], [1, 2, 3, 4], [0, 0, 0, 0], 4) := by
  decide

/-- C1 (code bug): with two unconditional registrations at priorities 10 and
20 and a batch of one record, the priority-10 handler raises (`err 7`) — yet
the dispatcher records the failure and **continues**: the priority-20 handler
is still invoked, and no exception propagates out of the execution loop (the
returned error component is `none`). The source's per-invocation
`try/except` at `handler.py` lines 170-179 logs the exception instead of
re-raising, contradicting the claim, the spec (§4.3 step 4d, §7) and the
repository's own tests (`test_error_handling.py` asserts `assertRaises`). -/
theorem c1_exception_swallowed_run :
    hexecute [⟨(1, 0), none, 10, none⟩, ⟨(2, 0), none, 20, none⟩] [5] []
      (fun _ => (none : Option Nat))
      (fun k _ _ => if k == (1, 0) then HookResult.err 7 else HookResult.ok)
      = ([⟨(1, 0), 10, [5], [none], HookResult.err 7⟩,
          ⟨(2, 0), 20, [5], [none], HookResult.ok⟩], none) := by
  decide

/-- C6 counterexample: an unconditional registration **is** invoked on an
empty batch. With `newRecords = []` and `oldRecords = []`, `_execute` still
calls the condition-free handler (with empty record lists), so the claim
that no handler is invoked on an empty batch is false on the code. -/
theorem c6_counterexample_unconditional_fires :
    (hexecute [⟨(1, 0), none, 50, none⟩] ([] : List Nat) []
      (fun _ => (none : Option Nat)) (fun _ _ _ => HookResult.ok)).1 ≠ [] := by
  decide

/-- C6 amended: on an empty batch no **conditional** registration fires (the
`any` quantifier over zero pairs is false), so if every registration carries
a Condition, `Handle`/`_execute` invokes no handler and returns without
error; unconditional registrations, however, are still invoked, with empty
record lists. -/
theorem c6_empty_batch_amended {α ε : Type} (regs : List (Reg α))
    (construct : Nat × Nat → Option ε)
    (invoke : Nat × Nat → List α → List (Option α) → HookResult ε)
    (hcond : ∀ r ∈ regs, r.condition ≠ none) :
    hexecute regs ([] : List α) [] construct invoke = ([], none) := by
  induction regs with
  | nil => rfl
  | cons h rest ih =>
    have hc := hcond h (List.mem_cons_self h rest)
    have hrest : ∀ r ∈ rest, r.condition ≠ none :=
      fun r hr => hcond r (List.mem_cons_of_mem h hr)
    cases hcc : h.condition with
    | none => exact absurd hcc hc
    | some c =>
      have htail := ih hrest
      simp [hexecute, padOld] at htail ⊢
      simp [execLoop, nlrOf_eq, regFires, hcc, htail]

/-- Witness for the amended C6 at a concrete input: one registration with a
condition, empty batch, no invocation and no error. -/
theorem c6_empty_batch_amended_witness :
    hexecute [(⟨(1, 0), some (fun n o => n == o.getD 0), 50, none⟩ : Reg Nat)]
      ([] : List Nat) [] (fun _ => (none : Option Nat)) (fun _ _ _ => HookResult.ok)
      = ([], none) := by
  exact c6_empty_batch_amended _ _ _ (by
    intro r hr
    simp only [List.mem_singleton] at hr
    subst hr
    simp)

/-- C7 counterexample: with `newRecords = [5]` and the longer
`oldRecords = [7, 8]`, the handler receives lists of different lengths
(`new_records` has length 1, `old_records` length 2): the code pads only the
old side and only when it is shorter, so the claim that both lists are
padded to equal length is false on the code. -/
theorem c7_counterexample_unequal_lengths :
    ¬ (((hexecute [⟨(1, 0), none, 50, none⟩] [5] [7, 8]
        (fun _ => (none : Option Nat)) (fun _ _ _ => HookResult.ok)).1.all
          (fun ev => ev.newArgs.length == ev.oldArgs.length)) = true) := by
  decide

/-- C7 amended: only `oldRecords` is padded, and only when it is shorter
than `newRecords`; when `oldRecords` is longer it is passed through
unchanged (so the two lists the handler receives have lengths
`newRecords.length` and `max newRecords.length oldRecords.length`), and the
zipped pair list used by the condition gate always has exactly
`newRecords.length` pairs — in the delete-like case the surplus old records
are dropped from the pairing. -/
theorem c7_padding_amended {α : Type} (newRecords oldRecords : List α) :
    (padOld newRecords oldRecords).length
        = max newRecords.length oldRecords.length
    ∧ (newRecords.zip (padOld newRecords oldRecords)).length
        = newRecords.length
    ∧ (oldRecords.length < newRecords.length →
        padOld newRecords oldRecords
          = oldRecords.map some
            ++ List.replicate (newRecords.length - oldRecords.length) none)
    ∧ (newRecords.length ≤ oldRecords.length →
        padOld newRecords oldRecords = oldRecords.map some) := by
  refine ⟨?_, ?_, ?_, ?_⟩
  · by_cases h : oldRecords.length < newRecords.length
    · simp [padOld, h]
      omega
    · simp [padOld, h]
      omega
  · by_cases h : oldRecords.length < newRecords.length
    · simp [padOld, h]
      omega
    · simp [padOld, h]
      omega
  · intro h
    simp [padOld, h]
  · intro h
    have h2 : ¬ oldRecords.length < newRecords.length := by omega
    simp [padOld, h2]

/-- Witness for the amended C7 at concrete inputs: a create-like batch
(`old` shorter, padded with one absent marker) and a delete-like batch
(`old` longer, passed through unchanged). -/
theorem c7_padding_amended_witness :
    padOld [1, 2] [3] = [some 3, none] ∧ padOld [5] [7, 8] = [some 7, some 8] := by
  constructor
  · have h := (c7_padding_amended [1, 2] [3]).2.2.1 (by decide)
    simpa using h
  · have h := (c7_padding_amended [5] [7, 8]).2.2.2 (by decide)
    simpa using h

/-- C10: whenever an outermost `handle` call — one started on a thread
whose dispatch queue is empty — returns normally, the queue is empty again,
and every entry that was enqueued during the run (including entries pushed
by nested `handle` calls made from inside hooks) has been handed to
`_process` exactly as many times as it was enqueued: for every entry value,
the number of `proc` events equals the number of `push` events. -/
theorem c10_drain_exactly_once {α σ : Type} [DecidableEq α]
    (st : RegistryState α) (inAtomic : Bool)
    (behavior : Nat × Nat → List α → List (Option α) → σ → σ × List (Entry α))
    (fuel : Nat) (e : Entry α) (a0 : σ) (sf : MState α σ)
    (h : runHandle st inAtomic behavior fuel e ⟨[], a0, []⟩ = some sf) :
    sf.queue = [] ∧ ∀ en, countProcOf en sf.trace = countPushOf en sf.trace := by
  have hq : sf.queue = [] := by
    refine mrun_queue_nil st inAtomic behavior fuel [Task.handleT e 1]
      ⟨[], a0, []⟩ sf h (fun hne => ?_)
    exact absurd rfl hne
  refine ⟨hq, fun en => ?_⟩
  have hc := mrun_conservation st inAtomic behavior en fuel [Task.handleT e 1]
    ⟨[], a0, []⟩ sf h
  simp [hq, countProcOf, countPushOf, taskProcCount, List.countP_cons] at hc
  exact hc

/-- Witness for C10 at a concrete input: a hook that re-triggers its own
entry once; the outermost call returns normally with an empty queue and
every entry processed exactly as often as pushed. -/
theorem c10_drain_exactly_once_witness :
    (runHandle c10st false c10beh 100 c10entry
      (⟨[], 0, []⟩ : MState Nat Nat)).elim False
      (fun s => s.queue = []
        ∧ ∀ en, countProcOf en s.trace = countPushOf en s.trace) := by
  rcases hr : runHandle c10st false c10beh 100 c10entry
      (⟨[], 0, []⟩ : MState Nat Nat) with _ | s
  · have hsome : (runHandle c10st false c10beh 100 c10entry
        (⟨[], 0, []⟩ : MState Nat Nat)).isSome = true := by decide
    rw [hr] at hsome
    simp at hsome
  · simp only [Option.elim]
    exact c10_drain_exactly_once c10st false c10beh 100 c10entry 0 s hr

/-- Registering a row never touches the `HookMeta._registered` key set. -/
theorem register_hook_registered {α : Type} (st : RegistryState α) (model : Nat)
    (event : Event) (r : Reg α) :
    (register_hook st model event r).registered = st.registered := by
  unfold register_hook
  split <;> rfl

/-- A registration whose `(model, event, key)` row is absent is appended to
the row list. -/
theorem register_hook_rows_fresh {α : Type} (st : RegistryState α) (model : Nat)
    (event : Event) (r : Reg α)
    (h2 : countStored st model event r.key = 0) :
    (register_hook st model event r).rows = st.rows ++ [⟨model, event, r⟩] := by
  have hall := List.countP_eq_zero.mp h2
  have hany : (st.rows.any fun row =>
      row.model == model && row.event == event && row.reg.key == r.key)
      = false := by
    rw [List.any_eq_false]
    intro row hrow
    simp only [Bool.not_eq_true]
    have := hall row hrow
    simpa using this
  unfold register_hook
  simp [hany]

/-- Registering the same hook key twice is a no-op: the second
`HookMeta` registration finds the key in `_registered` and does nothing,
whatever the starting state was. -/
theorem hookMetaRegister_idem {α : Type} (st : RegistryState α) (model : Nat)
    (event : Event) (r : Reg α) :
    hookMetaRegister (hookMetaRegister st model event r) model event r
      = hookMetaRegister st model event r := by
  by_cases hmem : (model, event, r.key) ∈ st.registered
  · have h : hookMetaRegister st model event r = st := by
      simp [hookMetaRegister, hmem]
    rw [h]
    exact h
  · have hreg : (hookMetaRegister st model event r).registered
        = st.registered ++ [(model, event, r.key)] := by
      simp [hookMetaRegister, hmem, register_hook_registered]
    have hmem2 : (model, event, r.key)
        ∈ (hookMetaRegister st model event r).registered := by
      rw [hreg]
      exact List.mem_append_right _ (List.mem_singleton.mpr rfl)
    set st2 := hookMetaRegister st model event r with hdef
    simp [hookMetaRegister, hmem2]

/-- Any positive number of repeated registrations of the same hook equals a
single registration. -/
theorem iterate_hookMetaRegister {α : Type} (st : RegistryState α) (model : Nat)
    (event : Event) (r : Reg α) (n : Nat) :
    Nat.iterate (fun s => hookMetaRegister s model event r) (n + 1) st
      = hookMetaRegister st model event r := by
  induction n with
  | zero => rfl
  | succ k ihk =>
    rw [Function.iterate_succ_apply', ihk]
    exact hookMetaRegister_idem st model event r

/-- Inserting into the sorted hook list preserves predicate counts. -/
theorem countP_insertByPriority {α : Type} (r : Reg α) (l : List (Reg α))
    (p : Reg α → Bool) :
    (insertByPriority r l).countP p = l.countP p + if p r then 1 else 0 := by
  induction l with
  | nil => simp [insertByPriority, List.countP_cons]
  | cons s rest ih =>
    by_cases h : s.priority < r.priority
    · simp only [insertByPriority, if_pos h, List.countP_cons, ih]
      omega
    · simp only [insertByPriority, if_neg h, List.countP_cons]

/-- The stable priority sort preserves predicate counts. -/
theorem countP_sortByPriority {α : Type} (l : List (Reg α)) (p : Reg α → Bool) :
    (sortByPriority l).countP p = l.countP p := by
  induction l with
  | nil => rfl
  | cons r rest ih =>
    simp only [sortByPriority, countP_insertByPriority, ih, List.countP_cons]

/-- With never-raising handler construction, the execution loop records one
invocation per firing hook: counting trace events by key equals counting
firing hooks by key. -/
theorem execLoop_countP_key {α ε : Type}
    (invoke : Nat × Nat → List α → List (Option α) → HookResult ε)
    (nl : List α) (ol : List (Option α)) (hooks : List (Reg α)) (k : Nat × Nat) :
    ((execLoop (fun _ => (none : Option ε)) invoke nl ol hooks).1).countP
        (fun ev => ev.key == k)
      = hooks.countP (fun h => (h.key == k) && regFires h nl ol) := by
  induction hooks with
  | nil => simp [execLoop]
  | cons h rest ih =>
    simp only [execLoop, nlrOf_eq]
    by_cases hf : regFires h nl ol = true
    · rw [if_pos hf]
      simp [List.countP_cons, ih, hf]
    · have hf2 : regFires h nl ol = false := by
        simpa using hf
      simp only [if_neg hf, List.countP_cons, hf2]
      simpa using ih

/-- A fresh `HookMeta` registration appends the registration to the hook
list looked up for `(model, event)`. -/
theorem get_hooks_hookMetaRegister_fresh {α : Type} (st : RegistryState α)
    (model : Nat) (event : Event) (r : Reg α)
    (h1 : (model, event, r.key) ∉ st.registered)
    (h2 : countStored st model event r.key = 0) :
    get_hooks (hookMetaRegister st model event r) model event
      = get_hooks st model event ++ [r] := by
  have hrows : (hookMetaRegister st model event r).rows
      = st.rows ++ [⟨model, event, r⟩] := by
    simp [hookMetaRegister, h1, register_hook_rows_fresh st model event r h2]
  unfold get_hooks
  rw [hrows, List.filter_append, List.map_append]
  simp

/-- No registration looked up for `(model, event)` carries key `k` when the
stored count for `(model, event, k)` is zero. -/
theorem get_hooks_key_absent {α : Type} (st : RegistryState α) (model : Nat)
    (event : Event) (k : Nat × Nat)
    (h2 : countStored st model event k = 0) :
    ∀ h ∈ get_hooks st model event, (h.key == k) = false := by
  intro h hmem
  have hall := List.countP_eq_zero.mp h2
  unfold get_hooks at hmem
  rcases List.mem_map.mp hmem with ⟨row, hrowmem, hrow⟩
  rcases List.mem_filter.mp hrowmem with ⟨hrows, hmatch⟩
  have hnot := hall row hrows
  simp only [Bool.and_eq_true, beq_iff_eq] at hmatch
  by_contra hkey
  apply hnot
  simp only [Bool.and_eq_true, beq_iff_eq]
  refine ⟨⟨hmatch.1, hmatch.2⟩, ?_⟩
  rw [← hrow] at hkey
  simpa using Bool.of_not_eq_false hkey

/-- C8: registering a hook under a key that is already registered is a
no-op — a second registration call leaves the state unchanged, any positive
number of repetitions stores exactly one registration — and the hook fires
exactly once per matching dispatch: the dispatch trace contains exactly one
invocation with the hook's key. -/
theorem c8_idempotent_registration {α ε : Type} (st : RegistryState α)
    (model : Nat) (event : Event) (r : Reg α)
    (newRecords oldRecords : List α)
    (invoke : Nat × Nat → List α → List (Option α) → HookResult ε)
    (h1 : (model, event, r.key) ∉ st.registered)
    (h2 : countStored st model event r.key = 0)
    (hcond : r.condition = none) :
    hookMetaRegister (hookMetaRegister st model event r) model event r
        = hookMetaRegister st model event r
    ∧ (∀ n, countStored
        (Nat.iterate (fun s => hookMetaRegister s model event r) (n + 1) st)
        model event r.key = 1)
    ∧ (processExec (hookMetaRegister st model event r) model event newRecords
        oldRecords (fun _ => (none : Option ε)) invoke).1.countP
          (fun ev => ev.key == r.key) = 1 := by
  refine ⟨hookMetaRegister_idem st model event r, ?_, ?_⟩
  · intro n
    rw [iterate_hookMetaRegister]
    have hrows : (hookMetaRegister st model event r).rows
        = st.rows ++ [⟨model, event, r⟩] := by
      simp [hookMetaRegister, h1, register_hook_rows_fresh st model event r h2]
    unfold countStored at h2 ⊢
    rw [hrows, List.countP_append, h2]
    simp
  · unfold processExec hexecute
    rw [execLoop_countP_key, countP_sortByPriority,
      get_hooks_hookMetaRegister_fresh st model event r h1 h2,
      List.countP_append]
    have hzero : (get_hooks st model event).countP
        (fun h => (h.key == r.key) && regFires h newRecords
          (padOld newRecords oldRecords)) = 0 := by
      rw [List.countP_eq_zero]
      intro h hmem
      simp [get_hooks_key_absent st model event r.key h2 h hmem]
    rw [hzero]
    simp [regFires, hcond]

/-- Witness for C8 at a concrete input: registering one unconditional hook
twice into the empty registry stores exactly one registration, and a
dispatch of one record invokes it exactly once. -/
theorem c8_idempotent_registration_witness :
    countStored
        (Nat.iterate
          (fun s => hookMetaRegister s 0 ("before_create".toList)
            (⟨(1, 0), none, 50, none⟩ : Reg Nat)) 2 ⟨[], []⟩)
        0 ("before_create".toList) (1, 0) = 1
    ∧ (processExec
        (hookMetaRegister (⟨[], []⟩ : RegistryState Nat) 0
          ("before_create".toList) ⟨(1, 0), none, 50, none⟩)
        0 ("before_create".toList) [5] [] (fun _ => (none : Option Nat))
        (fun _ _ _ => HookResult.ok)).1.countP (fun ev => ev.key == (1, 0)) = 1 := by
  constructor
  · exact (c8_idempotent_registration (⟨[], []⟩ : RegistryState Nat) 0
      ("before_create".toList) ⟨(1, 0), none, 50, none⟩ [5] []
      (fun _ _ _ => (HookResult.ok : HookResult Nat)) (by simp) rfl rfl).2.1 1
  · exact (c8_idempotent_registration (⟨[], []⟩ : RegistryState Nat) 0
      ("before_create".toList) ⟨(1, 0), none, 50, none⟩ [5] []
      (fun _ _ _ => (HookResult.ok : HookResult Nat)) (by simp) rfl rfl).2.2

end BulkHooks
